import Mathlib

/-!
Verification of the phrase-resolution engine of `rjgtoys.cli`
(file `src/rjgtoys/cli/_base.py`), shallowly embedded in Lean.

The embedding covers:
* `Tool.__init__`      → `Tool.init` (split phrases, sort the candidate table)
* `Tool.main`          → `Tool.mainLoop` / `Tool.dispatch` / `Tool.main`
* `Tool.validate_spec` → `Tool.validate_spec` (via `Tool.spec_errors`)
* `Tool._parse_part`   → `Tool.parse_part` / `Tool.parseLoop`
* `Tool.do_help`, `Tool.handle_unrecognised`, `Tool.handle_incomplete`
  and the surrounding process exit behaviour → `Tool.do_help`, `runTool`.

Symbol resolution (`resolve`) is modelled as an environment
`String → Option Cmd`: `none` models an import/attribute failure.
-/

namespace RjgCli

/-- Python `' '.join(tokens)`. -/
def joinTokens (ts : List String) : String := String.intercalate " " ts

/-- Python `s.lstrip('.')`: remove every leading `'.'` character. -/
def lstripDot (s : String) : String := String.mk (s.data.dropWhile (fun c => c = '.'))

/-- One row of the candidate table: `(phrase-as-token-list, phrase, target)`,
as built by `Tool.__init__`. -/
structure Entry where
  tokens : List String
  phrase : String
  target : String
deriving DecidableEq, Repr

/-- Python `str.split(' ')` on the character level: split at every single
space, keeping empty chunks. -/
def splitChars : List Char → List (List Char)
  | [] => [[]]
  | c :: rest =>
    if c = ' ' then [] :: splitChars rest
    else
      match splitChars rest with
      | chunk :: chunks => (c :: chunk) :: chunks
      | [] => [[c]]

/-- Python `p.split(' ')`. -/
def splitSp (s : String) : List String := (splitChars s.data).map String.mk

/-- Python `phrase.startswith('_')`. -/
def startsWithUnderscore (s : String) : Bool :=
  match s.data with
  | c :: _ => c = '_'
  | [] => false

/-- Python `<` on characters (code points). -/
def charLtb (a b : Char) : Bool := decide (a < b)

/-- Lexicographic `<` on character lists. -/
def charsLtb : List Char → List Char → Bool
  | [], [] => false
  | [], _ :: _ => true
  | _ :: _, [] => false
  | a :: as, b :: bs => if charLtb a b then true else if charLtb b a then false else charsLtb as bs

/-- Python `<` on strings (lexicographic on code points). -/
def strLtb (a b : String) : Bool := charsLtb a.data b.data

/-- Python `<` on lists of strings (elementwise, shorter-out first). -/
def listLtb : List String → List String → Bool
  | [], [] => false
  | [], _ :: _ => true
  | _ :: _, [] => false
  | a :: as, b :: bs => if strLtb a b then true else if strLtb b a then false else listLtb as bs

/-- Python `<` on the `(tokens, phrase, target)` triples sorted by `Tool.__init__`. -/
def entryLtb (a b : Entry) : Bool :=
  if listLtb a.tokens b.tokens then true
  else if listLtb b.tokens a.tokens then false
  else if strLtb a.phrase b.phrase then true
  else if strLtb b.phrase a.phrase then false
  else strLtb a.target b.target

/-- Stable insertion used to model Python `sorted`. -/
def insertEntry (e : Entry) : List Entry → List Entry
  | [] => [e]
  | x :: xs => if entryLtb x e then x :: insertEntry e xs else e :: x :: xs

/-- Python `sorted` over entries (stable insertion sort). -/
def sortEntries (l : List Entry) : List Entry := l.foldr insertEntry []

namespace Tool

/-- Model of `Tool.__init__`:
`self.cmds = sorted((p.split(' '), p, c) for (p, c) in commands)`. -/
def init (commands : List (String × String)) : List Entry :=
  sortEntries (commands.map (fun pc => ⟨splitSp pc.1, pc.1, pc.2⟩))

/-- The possible results of one call to `Tool.main`, before symbol resolution.
`crash` is the `IndexError` raised by `possible[0]` when the candidate table
is empty (the `while` loop is never entered). -/
inductive Outcome where
  | matched (name target : String) (subargs : List String)
  | incomplete (pfx : List String) (possible : List Entry)
  | unrecognised (pfx : List String) (possible : List Entry)
  | help (possible : List Entry)
  | crash
deriving DecidableEq, Repr

/-- Python `t in ('help', '--help', '-h')`. -/
def isHelpToken (t : String) : Bool := t == "help" || t == "--help" || t == "-h"

/-- The code after the `while` loop of `Tool.main`: build `cmdargv`,
take `possible[0][2]` as target (an `IndexError` if `possible` is empty),
and hand the remaining tokens to the instantiated command. -/
def finish (argv : List String) (possible : List Entry) (pfx : List String) : Outcome :=
  match possible with
  | [] => .crash
  | e :: _ => .matched (joinTokens pfx) e.target (argv.drop pfx.length)

/-- Python `if len(possible) == 1: if possible[0][0] == prefix: break`. -/
def breakCond (possible : List Entry) (pfx : List String) : Bool :=
  match possible with
  | [e] => e.tokens == pfx
  | _ => false

/-- The `while len(possible):` loop of `Tool.main`.  `argv` is the full
effective argument list, `possible` the current candidate subset, `pfx`
the consumed prefix, `rest` the tokens not yet drawn from the iterator. -/
def mainLoop (argv : List String) (possible : List Entry) (pfx : List String) :
    List String → Outcome
  | [] =>
    if possible.length = 0 then finish argv possible pfx
    else if breakCond possible pfx then finish argv possible pfx
    else .incomplete pfx possible
  | t :: ts =>
    if possible.length = 0 then finish argv possible pfx
    else if breakCond possible pfx then finish argv possible pfx
    else if isHelpToken t then .help possible
    else
      let pfx1 := pfx ++ [t]
      let next1 := possible.filter (fun e => decide (e.tokens.take pfx1.length = pfx1))
      if next1.isEmpty then .unrecognised pfx1 possible
      else mainLoop argv next1 pfx1 ts

/-- Model of `Tool.main` run on an explicit effective argument list. -/
def dispatch (cmds : List Entry) (argv : List String) : Outcome :=
  mainLoop argv cmds [] argv

/-- Python `argv = argv or sys.argv[1:]`: `None` and the empty list both
fall back. -/
def effArgv (sysArgv : List String) (argvOpt : Option (List String)) : List String :=
  match argvOpt with
  | none => sysArgv
  | some a => if a = [] then sysArgv else a

/-- Model of `Tool.main(argv)` with the process argument list made
explicit. -/
def main (sysArgv : List String) (cmds : List Entry) (argvOpt : Option (List String)) : Outcome :=
  dispatch cmds (effArgv sysArgv argvOpt)

/-- Fuel-counted version of `mainLoop`: `fuel` bounds the number of loop
iterations (narrowing steps plus the final checks); `none` means the
fuel ran out before the loop finished. -/
def mainLoopFuel (argv : List String) : Nat → List Entry → List String → List String →
    Option Outcome
  | 0, _, _, _ => none
  | fuel + 1, possible, pfx, rest =>
    match rest with
    | [] =>
      if possible.length = 0 then some (finish argv possible pfx)
      else if breakCond possible pfx then some (finish argv possible pfx)
      else some (.incomplete pfx possible)
    | t :: ts =>
      if possible.length = 0 then some (finish argv possible pfx)
      else if breakCond possible pfx then some (finish argv possible pfx)
      else if isHelpToken t then some (.help possible)
      else
        let pfx1 := pfx ++ [t]
        let next1 := possible.filter (fun e => decide (e.tokens.take pfx1.length = pfx1))
        if next1.isEmpty then some (.unrecognised pfx1 possible)
        else mainLoopFuel argv fuel next1 pfx1 ts

/-! ### Specification validator (`Tool.validate_spec`, `Tool._spec_errors`) -/

/-- One step of `targets[phrase].add(impl)` over an insertion-ordered
association list of insertion-ordered duplicate-free target lists
(modelling `defaultdict(set)`). -/
def addTarget (acc : List (String × List String)) (phrase impl : String) :
    List (String × List String) :=
  match acc with
  | [] => [(phrase, [impl])]
  | (p, ts) :: rest =>
    if p = phrase then (p, if impl ∈ ts then ts else ts ++ [impl]) :: rest
    else (p, ts) :: addTarget rest phrase impl

/-- The `targets` dictionary built by `Tool._spec_errors`. -/
def groupTargets (spec : List (String × String)) : List (String × List String) :=
  spec.foldl (fun acc pi => addTarget acc pi.1 pi.2) []

/-- Model of `Tool._spec_errors`: every phrase whose target set has more
than one member. -/
def spec_errors (spec : List (String × String)) : List (String × List String) :=
  (groupTargets spec).filter (fun pt => decide (1 < pt.2.length))

/-- Result of `Tool.validate_spec`: the spec itself, or the
`SpecificationError` payload (the list of ambiguous phrases, each
with its conflicting targets). -/
inductive VResult where
  | ok (spec : List (String × String))
  | err (errors : List (String × List String))
deriving DecidableEq, Repr

/-- Model of `Tool.validate_spec`: raise `SpecificationError(errors)` if
any errors were found, otherwise return the spec unchanged. -/
def validate_spec (spec : List (String × String)) : VResult :=
  match spec_errors spec with
  | [] => .ok spec
  | e => .err e

/-! ### Specification parser (`Tool._parse_part`) -/

/-- A value of the nested specification data: a string leaf, a nested
mapping (as an insertion-ordered key/value list), or anything else
(which trips the `assert isinstance(body, dict)`). -/
inductive Node where
  | leaf (s : String)
  | node (entries : List (String × Node))
  | other

/-- The errors `Tool._parse_part` can raise: `TypeError` from
concatenating a non-string `_package` value, `AssertionError` from a
value that is neither a string nor a mapping. -/
inductive ParseErr where
  | typeError
  | assertionError
deriving DecidableEq, Repr

/-- Result of `Tool._parse_part`: the flattened `(phrase, target)` pairs,
or a propagated error. -/
inductive ParseResult where
  | ok (pairs : List (String × String))
  | err (e : ParseErr)
deriving DecidableEq, Repr

mutual

/-- Model of `Tool._parse_part(namespace, tokens, data)`: apply the
`_package` key (if any) to the namespace, then walk the items. -/
def parse_part (ns : String) (tokens : List String) (entries : List (String × Node)) :
    ParseResult :=
  match entries.lookup "_package" with
  | some (.leaf p) => parseLoop (lstripDot (ns ++ "." ++ p)) tokens entries
  | some _ => .err .typeError
  | none => parseLoop ns tokens entries
termination_by sizeOf entries + 1

/-- The `for (phrase, body) in data.items()` loop of `Tool._parse_part`.
The `tokens` variable is rebound to `tokens + (phrase,)` for the body and
restored by `tokens = tokens[:-1]` in the `finally` clause, which also
runs when an error propagates. -/
def parseLoop (ns : String) (tokens : List String) (entries : List (String × Node)) :
    ParseResult :=
  match entries with
  | [] => .ok []
  | (phrase, body) :: rest =>
    if startsWithUnderscore phrase then parseLoop ns tokens rest
    else
      let tokens1 := tokens ++ [phrase]
      match body with
      | .leaf s =>
        match parseLoop ns tokens1.dropLast rest with
        | .ok ps => .ok ((joinTokens tokens1, lstripDot (ns ++ "." ++ s)) :: ps)
        | .err e => .err e
      | .node es =>
        match parse_part ns tokens1 es with
        | .err e => .err e
        | .ok ps =>
          match parseLoop ns tokens1.dropLast rest with
          | .ok qs => .ok (ps ++ qs)
          | .err e => .err e
      | .other => .err .assertionError
termination_by sizeOf entries

end

/-- Model of `Tool._spec_from_dict`: parse from an empty namespace and
token list. -/
def spec_from_dict_pairs (entries : List (String × Node)) : ParseResult :=
  parse_part "" [] entries

end Tool

/-! ### Help rendering and process-level behaviour -/

/-- A resolved command type: its `description` attribute, and the behaviour
of `cmd.main(cmdargv)` for the instantiated command. -/
structure Cmd where
  description : String
  run : List String → Int

/-- Python `p.ljust(w)`. -/
def ljust (s : String) (w : Nat) : String :=
  s ++ String.mk (List.replicate (w - s.length) ' ')

namespace Tool

/-- Python `w = max(len(p) for (_, p, _) in possible)` (0 placeholder;
`do_help` raises before using it when `possible` is empty). -/
def maxWidth (possible : List Entry) : Nat :=
  possible.foldl (fun m e => max m e.phrase.length) 0

/-- Result of rendering help text: the printed lines, or a propagated
exception. -/
inductive HelpResult where
  | ok (lines : List String)
  | exn
deriving DecidableEq, Repr

/-- The body of the `for (_, p, c) in possible` loop of `Tool.do_help`:
resolve each target and read its `description`.  A resolution failure is
re-raised by the stray `raise` in the `except` clause (the placeholder
assignment after it is dead code), so it propagates. -/
def helpLines (env : String → Option Cmd) (w : Nat) : List Entry → HelpResult
  | [] => .ok []
  | e :: rest =>
    match env e.target with
    | none => .exn
    | some cmd =>
      match helpLines env w rest with
      | .ok ls => .ok (("  " ++ ljust e.phrase w ++ " - " ++ cmd.description) :: ls)
      | .exn => .exn

/-- Model of `Tool.do_help(possible, heading)`: print the heading then one
line per candidate.  `max()` over an empty candidate list raises
`ValueError`. -/
def do_help (env : String → Option Cmd) (heading : String) (possible : List Entry) :
    HelpResult :=
  if possible = [] then .exn
  else
    match helpLines env (maxWidth possible) possible with
    | .ok ls => .ok (heading :: ls)
    | .exn => .exn

/-- Model of `Tool.handle_unrecognised`. -/
def handle_unrecognised (env : String → Option Cmd) (pfx : List String)
    (possible : List Entry) : HelpResult :=
  do_help env
    (if pfx = [] then "Unrecognised command, valid options are:"
     else "Unrecognised command " ++ joinTokens pfx ++ ", valid options are:")
    possible

/-- Model of `Tool.handle_incomplete`. -/
def handle_incomplete (env : String → Option Cmd) (pfx : List String)
    (possible : List Entry) : HelpResult :=
  do_help env
    (if pfx = [] then "Incomplete command, could be one of:"
     else "Incomplete command " ++ joinTokens pfx ++ ", could be one of:")
    possible

end Tool

/-- The value of `tool.main(argv)` as seen at the process boundary:
`ok status` (with `status = none` for Python `None`), or an uncaught
exception. -/
inductive RunResult where
  | ok (status : Option Int)
  | exn
deriving DecidableEq, Repr

/-- The whole of `Tool.main` including symbol resolution, command
invocation and the help/error hooks. -/
def runTool (env : String → Option Cmd) (sysArgv : List String) (cmds : List Entry)
    (argvOpt : Option (List String)) : RunResult :=
  match Tool.main sysArgv cmds argvOpt with
  | .matched _ target subargs =>
    match env target with
    | none => .exn
    | some cmd => .ok (some (cmd.run subargs))
  | .incomplete pfx possible =>
    match Tool.handle_incomplete env pfx possible with
    | .ok _ => .ok none
    | .exn => .exn
  | .unrecognised pfx possible =>
    match Tool.handle_unrecognised env pfx possible with
    | .ok _ => .ok none
    | .exn => .exn
  | .help possible =>
    match Tool.do_help env "Valid commands:" possible with
    | .ok _ => .ok none
    | .exn => .exn
  | .crash => .exn

/-- Python `sys.exit(tool.main())`: the process exit status of a completed
run (`None` exits with status 0); `none` if an exception escaped. -/
def exitStatusOf (r : RunResult) : Option Int :=
  match r with
  | .ok v => some (v.getD 0)
  | .exn => none

/-- Whether a dispatch outcome is a unique match (a command was run). -/
def isMatched : Tool.Outcome → Bool
  | .matched _ _ _ => true
  | _ => false

/-! ### Concrete fixtures used by individual claims -/

/-- The two-command tool of the spec examples. -/
def sayTable : List Entry := Tool.init [("say hello", "A"), ("say goodbye", "B")]

/-- An environment resolving `A` and `B`; `A`'s behaviour distinguishes the
sub-argument list `["--x"]` from all others. -/
def envAB : String → Option Cmd
  | "A" => some ⟨"says hello", fun args => if args = ["--x"] then 7 else 9⟩
  | "B" => some ⟨"says goodbye", fun _ => 8⟩
  | _ => none

/-- An environment in which no target reference resolves. -/
def env0 : String → Option Cmd := fun _ => none

/-- A candidate table with two literally identical entries whose phrase
contains a help marker token. -/
def dupHelpTable : List Entry := Tool.init [("say help", "A"), ("say help", "A")]

/-! ## Shared lemmas about the dispatcher -/

/-- The fuel-counted loop with `len(rest) + 1` iterations of fuel computes
the same outcome as the unbounded loop: at most one loop iteration per
remaining input token, plus one final check. -/
theorem mainLoopFuel_eq (argv : List String) :
    ∀ (rest : List String) (possible : List Entry) (pfx : List String),
      Tool.mainLoopFuel argv (rest.length + 1) possible pfx rest
        = some (Tool.mainLoop argv possible pfx rest) := by
  intro rest
  induction rest with
  | nil =>
    intro possible pfx
    simp only [Tool.mainLoopFuel, Tool.mainLoop, List.length_nil]
    split <;> try rfl
    split <;> rfl
  | cons t ts ih =>
    intro possible pfx
    simp only [Tool.mainLoopFuel, Tool.mainLoop, List.length_cons]
    by_cases h0 : possible.length = 0
    · simp [h0]
    · simp only [h0, if_false]
      cases hbr : Tool.breakCond possible pfx with
      | true => simp [hbr]
      | false =>
        simp only [hbr, Bool.false_eq_true, if_false]
        cases hh : Tool.isHelpToken t with
        | true => simp [hh]
        | false =>
          simp only [hh, Bool.false_eq_true, if_false]
          cases hfe :
              (possible.filter
                (fun e => decide (e.tokens.take (pfx ++ [t]).length = pfx ++ [t]))).isEmpty with
          | true => simp [hfe]
          | false => simp only [hfe, Bool.false_eq_true, if_false]; exact ih _ _

/-- Started from a non-empty candidate subset, the loop never reaches the
`IndexError` after the loop (`crash`). -/
theorem mainLoop_ne_crash (argv : List String) :
    ∀ (rest : List String) (possible : List Entry) (pfx : List String),
      possible ≠ [] → Tool.mainLoop argv possible pfx rest ≠ .crash := by
  intro rest
  induction rest with
  | nil =>
    intro possible pfx hne
    simp only [Tool.mainLoop]
    have h0 : ¬ possible.length = 0 := by simpa [List.length_eq_zero] using hne
    simp only [h0, if_false]
    split
    · match possible, hne with
      | e :: rest', _ => simp [Tool.finish]
    · simp
  | cons t ts ih =>
    intro possible pfx hne
    simp only [Tool.mainLoop]
    have h0 : ¬ possible.length = 0 := by simpa [List.length_eq_zero] using hne
    simp only [h0, if_false]
    split
    · match possible, hne with
      | e :: rest', _ => simp [Tool.finish]
    · split
      · simp
      · split
        · simp
        · apply ih
          rename_i hfe
          simpa [List.isEmpty_iff] using hfe

/-- Taking one token beyond a list's length from `l ++ a :: r` yields
`l ++ [a]`. -/
theorem take_length_succ_append {α : Type} (l : List α) (a : α) (r : List α) :
    (l ++ a :: r).take (l.length + 1) = l ++ [a] := by
  induction l with
  | nil => simp
  | cons x xs ih => simp [ih]

/-- Duplicated-entry table: feeding exactly the phrase's tokens (none of
them a help marker) always ends in the incomplete-command handler — the
subset keeps both copies, so the size-one termination check never fires. -/
theorem dup_incomplete (argv : List String) :
    ∀ (rest pfx : List String) (e : Entry), e.tokens = pfx ++ rest →
      (∀ t ∈ rest, Tool.isHelpToken t = false) →
      Tool.mainLoop argv [e, e] pfx rest = .incomplete (pfx ++ rest) [e, e] := by
  intro rest
  induction rest with
  | nil =>
    intro pfx e _ _
    simp [Tool.mainLoop, Tool.breakCond]
  | cons t ts ih =>
    intro pfx e htok hh
    have hht : Tool.isHelpToken t = false := hh t (by simp)
    have htake : e.tokens.take (pfx.length + 1) = pfx ++ [t] := by
      rw [htok]; exact take_length_succ_append pfx t ts
    have ihr := ih (pfx ++ [t]) e (by simp [htok]) (fun u hu => hh u (by simp [hu]))
    simp [Tool.mainLoop, Tool.breakCond, hht, List.filter, htake, ihr]

/-- Duplicated-entry table: no input ever produces a unique match. -/
theorem dup_never_matched (argv : List String) :
    ∀ (rest pfx : List String) (e : Entry),
      isMatched (Tool.mainLoop argv [e, e] pfx rest) = false := by
  intro rest
  induction rest with
  | nil =>
    intro pfx e
    simp [Tool.mainLoop, Tool.breakCond, isMatched]
  | cons t ts ih =>
    intro pfx e
    simp only [Tool.mainLoop, List.length_cons, Tool.breakCond]
    cases hh : Tool.isHelpToken t with
    | true => simp [hh, isMatched]
    | false =>
      simp only [hh, Bool.false_eq_true, if_false]
      by_cases hp : e.tokens.take (pfx.length + 1) = pfx ++ [t]
      · simp [List.filter, hp, ih]
      · simp [List.filter, hp, isMatched]

/-- A help outcome always carries the non-empty candidate subset that was
current when the help marker was consumed. -/
theorem mainLoop_help_nonempty (argv : List String) :
    ∀ (rest : List String) (possible : List Entry) (pfx : List String)
      (ps : List Entry), Tool.mainLoop argv possible pfx rest = .help ps → ps ≠ [] := by
  intro rest
  induction rest with
  | nil =>
    intro possible pfx ps h
    match possible with
    | [] => simp [Tool.mainLoop, Tool.finish] at h
    | x :: xs =>
      simp only [Tool.mainLoop] at h
      split at h
      · simp [Tool.finish] at h
      · split at h
        · simp [Tool.finish] at h
        · simp at h
  | cons t ts ih =>
    intro possible pfx ps h
    match possible with
    | [] => simp [Tool.mainLoop, Tool.finish] at h
    | x :: xs =>
      simp only [Tool.mainLoop] at h
      split at h
      · simp [Tool.finish] at h
      · split at h
        · simp [Tool.finish] at h
        · split at h
          · intro hps
            subst hps
            simp at h
          · split at h
            · simp at h
            · exact ih _ _ _ h

/-- Rendering the per-candidate help lines succeeds when every candidate's
target reference resolves. -/
theorem helpLines_ok (env : String → Option Cmd) (w : Nat) :
    ∀ (possible : List Entry), (∀ e ∈ possible, (env e.target).isSome) →
      ∃ ls, Tool.helpLines env w possible = .ok ls := by
  intro possible
  induction possible with
  | nil => intro _; exact ⟨[], rfl⟩
  | cons e rest ih =>
    intro hres
    obtain ⟨cmd, hcmd⟩ := Option.isSome_iff_exists.mp (hres e (by simp))
    obtain ⟨ls, hls⟩ := ih (fun x hx => hres x (by simp [hx]))
    refine ⟨("  " ++ ljust e.phrase w ++ " - " ++ cmd.description) :: ls, ?_⟩
    simp [Tool.helpLines, hcmd, hls]

/-- Help display succeeds on a non-empty candidate set whose targets all
resolve. -/
theorem do_help_ok (env : String → Option Cmd) (heading : String)
    (possible : List Entry) (hne : possible ≠ [])
    (hres : ∀ e ∈ possible, (env e.target).isSome) :
    ∃ ls, Tool.do_help env heading possible = .ok ls := by
  obtain ⟨ls, hls⟩ := helpLines_ok env (Tool.maxWidth possible) possible hres
  refine ⟨heading :: ls, ?_⟩
  simp [Tool.do_help, hne, hls]

/-- Sorting a table built from two identical pairs keeps both copies. -/
theorem init_pair_dup (p c : String) :
    Tool.init [(p, c), (p, c)] = [⟨splitSp p, p, c⟩, ⟨splitSp p, p, c⟩] := by
  simp only [Tool.init, List.map, sortEntries, List.foldr, insertEntry]
  cases entryLtb ⟨splitSp p, p, c⟩ ⟨splitSp p, p, c⟩ <;> simp [insertEntry]

/-! ## Lemmas about the validator's target grouping -/

/-- Keys of `addTarget`: unchanged if the phrase is already a key,
appended otherwise. -/
theorem addTarget_keys (p i : String) :
    ∀ (acc : List (String × List String)),
      (Tool.addTarget acc p i).map Prod.fst =
        if p ∈ acc.map Prod.fst then acc.map Prod.fst else acc.map Prod.fst ++ [p] := by
  intro acc
  induction acc with
  | nil => simp [Tool.addTarget]
  | cons g rest ih =>
    match g with
    | (q, ts) =>
      by_cases hq : q = p
      · subst hq
        simp [Tool.addTarget]
      · have hq' : ¬ p = q := fun hc => hq hc.symm
        simp only [Tool.addTarget, hq, if_false, List.map_cons, List.mem_cons, hq',
          false_or, ih]
        by_cases hk : p ∈ rest.map Prod.fst <;> simp [hk]

/-- If the phrase is not yet a key, `addTarget` appends a fresh singleton
group at the end. -/
theorem addTarget_not_mem_keys (p i : String) :
    ∀ (acc : List (String × List String)), p ∉ acc.map Prod.fst →
      Tool.addTarget acc p i = acc ++ [(p, [i])] := by
  intro acc
  induction acc with
  | nil => intro _; rfl
  | cons g rest ih =>
    intro h
    match g with
    | (q, ts) =>
      have hq : ¬ q = p := by
        intro hc
        exact h (by simp [hc])
      simp only [Tool.addTarget, hq, if_false, List.cons_append, List.cons.injEq, true_and]
      exact ih (fun hc => h (by simp [hc]))

/-- Mapping a keyed update over groups none of which carry the key is the
identity. -/
theorem map_keep_of_no_key (p : String) (nts : List String) :
    ∀ (l : List (String × List String)), (∀ g ∈ l, ¬ g.1 = p) →
      l.map (fun g => if g.1 = p then (p, nts) else g) = l := by
  intro l
  induction l with
  | nil => intro _; simp
  | cons a t ih =>
    intro h
    simp only [List.map_cons, if_neg (h a (by simp)), List.cons.injEq, true_and]
    exact ih (fun g hg => h g (by simp [hg]))

/-- Updating with a phrase whose keys are unique rewrites exactly the one
group carrying that phrase. -/
theorem addTarget_mem_keys (p i : String) :
    ∀ (acc : List (String × List String)) (ts0 : List String),
      (acc.map Prod.fst).Nodup → (p, ts0) ∈ acc →
      Tool.addTarget acc p i =
        acc.map (fun g => if g.1 = p then (p, if i ∈ ts0 then ts0 else ts0 ++ [i]) else g) := by
  intro acc
  induction acc with
  | nil => intro ts0 _ hmem; simp at hmem
  | cons g rest ih =>
    intro ts0 hnd hmem
    match g with
    | (q, ts) =>
      have hndr : (rest.map Prod.fst).Nodup := (List.nodup_cons.mp hnd).2
      have hqr : q ∉ rest.map Prod.fst := (List.nodup_cons.mp hnd).1
      by_cases hq : q = p
      · subst hq
        have hts : ts0 = ts := by
          rcases List.mem_cons.mp hmem with h | h
          · exact (by simpa using h : q = q ∧ ts0 = ts).2
          · exact absurd (List.mem_map_of_mem Prod.fst h) hqr
        subst hts
        have hforall : ∀ g ∈ rest, ¬ g.1 = q := by
          intro g hg hc
          exact hqr (hc ▸ List.mem_map_of_mem Prod.fst hg)
        simp only [List.map_cons]
        rw [map_keep_of_no_key q _ rest hforall]
        simp [Tool.addTarget]
      · have hmr : (p, ts0) ∈ rest := by
          rcases List.mem_cons.mp hmem with h | h
          · exact absurd (by simpa using h : p = q ∧ ts0 = ts).1.symm hq
          · exact h
        simp only [Tool.addTarget, hq, if_false, List.map_cons, if_neg hq, List.cons.injEq,
          true_and]
        exact ih ts0 hndr hmr

/-- With duplicate-free keys, a key determines its group. -/
theorem keys_nodup_unique :
    ∀ (acc : List (String × List String)), (acc.map Prod.fst).Nodup →
      ∀ (p : String) (a b : List String), (p, a) ∈ acc → (p, b) ∈ acc → a = b := by
  intro acc
  induction acc with
  | nil => intro _ p a b ha; simp at ha
  | cons g rest ih =>
    intro hnd p a b ha hb
    match g with
    | (q, ts) =>
      have hndr : (rest.map Prod.fst).Nodup := (List.nodup_cons.mp hnd).2
      have hgr : q ∉ rest.map Prod.fst := (List.nodup_cons.mp hnd).1
      rcases List.mem_cons.mp ha with ha' | ha' <;> rcases List.mem_cons.mp hb with hb' | hb'
      · have h1 : p = q ∧ a = ts := by simpa using ha'
        have h2 : p = q ∧ b = ts := by simpa using hb'
        rw [h1.2, h2.2]
      · exfalso
        have h1 : p = q ∧ a = ts := by simpa using ha'
        apply hgr
        have := List.mem_map_of_mem Prod.fst hb'
        simpa [← h1.1] using this
      · exfalso
        have h2 : p = q ∧ b = ts := by simpa using hb'
        apply hgr
        have := List.mem_map_of_mem Prod.fst ha'
        simpa [← h2.1] using this
      · exact ih hndr p a b ha' hb'

/-- Invariant tying the `targets` dictionary to the prefix of the spec
already processed: each group holds exactly the targets its phrase was
paired with, without duplicates; every processed phrase has a group; and
keys are unique. -/
def GInv (processed : List (String × String)) (acc : List (String × List String)) : Prop :=
  (∀ p ts, (p, ts) ∈ acc → ((∀ t, t ∈ ts ↔ (p, t) ∈ processed) ∧ ts.Nodup)) ∧
  (∀ p t, (p, t) ∈ processed → ∃ ts, (p, ts) ∈ acc) ∧
  (acc.map Prod.fst).Nodup

/-- One `targets[phrase].add(impl)` step preserves the invariant. -/
theorem ginv_step (processed : List (String × String)) (acc : List (String × List String))
    (p i : String) (h : GInv processed acc) :
    GInv (processed ++ [(p, i)]) (Tool.addTarget acc p i) := by
  obtain ⟨h1, h2, h3⟩ := h
  by_cases hk : p ∈ acc.map Prod.fst
  · obtain ⟨g, hg, hg1⟩ := List.mem_map.mp hk
    have hts0 : (p, g.2) ∈ acc := by
      have : g = (p, g.2) := by
        rw [← hg1]
      rw [← this]
      exact hg
    set ts0 := g.2 with hts0def
    set nts := if i ∈ ts0 then ts0 else ts0 ++ [i] with hnts
    have hmemnts : ∀ t, t ∈ nts ↔ (t ∈ ts0 ∨ t = i) := by
      intro t
      by_cases hi : i ∈ ts0
      · simp only [hnts, if_pos hi]
        constructor
        · exact fun ht => Or.inl ht
        · rintro (ht | rfl)
          · exact ht
          · exact hi
      · simp [hnts, if_neg hi]
    rw [addTarget_mem_keys p i acc ts0 h3 hts0]
    have hiff0 := (h1 p ts0 hts0).1
    have hnd0 := (h1 p ts0 hts0).2
    refine ⟨?_, ?_, ?_⟩
    · intro q ts hq
      obtain ⟨g', hg', hmap⟩ := List.mem_map.mp hq
      by_cases hg1' : g'.1 = p
      · rw [if_pos hg1'] at hmap
        have hq1 : q = p := (congrArg Prod.fst hmap).symm
        have hts1 : ts = nts := (congrArg Prod.snd hmap).symm
        constructor
        · intro t
          rw [hts1, hmemnts t, hq1, List.mem_append]
          constructor
          · rintro (ht | rfl)
            · exact Or.inl ((hiff0 t).mp ht)
            · exact Or.inr (by simp)
          · rintro (ht | ht)
            · exact Or.inl ((hiff0 t).mpr ht)
            · have h5 : p = p ∧ t = i := by simpa using ht
              exact Or.inr h5.2
        · rw [hts1]
          by_cases hi : i ∈ ts0
          · simpa [hnts, hi] using hnd0
          · simp only [hnts, if_neg hi]
            exact List.Nodup.append hnd0 (by simp) (by simpa using hi)
      · rw [if_neg hg1'] at hmap
        have hin : (q, ts) ∈ acc := hmap ▸ hg'
        have hq1' : ¬ q = p := by
          rw [hmap] at hg1'
          exact hg1'
        have ⟨hiff, hnd⟩ := h1 q ts hin
        constructor
        · intro t
          rw [hiff t, List.mem_append]
          constructor
          · exact fun ht => Or.inl ht
          · rintro (ht | ht)
            · exact ht
            · exfalso
              have h5 : q = p ∧ t = i := by simpa using ht
              exact hq1' h5.1
        · exact hnd
    · intro q t hq
      rcases List.mem_append.mp hq with hqin | hqnew
      · obtain ⟨ts, hts⟩ := h2 q t hqin
        by_cases hq1 : q = p
        · refine ⟨nts, ?_⟩
          rw [hq1]
          have := List.mem_map_of_mem
            (fun g => if g.1 = p then (p, nts) else g) hts0
          simpa using this
        · refine ⟨ts, ?_⟩
          have := List.mem_map_of_mem
            (fun g => if g.1 = p then (p, nts) else g) hts
          simpa [hq1] using this
      · have hqt : q = p ∧ t = i := by simpa using hqnew
        refine ⟨nts, ?_⟩
        rw [hqt.1]
        have := List.mem_map_of_mem
          (fun g => if g.1 = p then (p, nts) else g) hts0
        simpa using this
    · have hkeys : (acc.map (fun g => if g.1 = p then (p, nts) else g)).map Prod.fst
          = acc.map Prod.fst := by
        rw [List.map_map]
        apply List.map_congr_left
        intro g' _
        by_cases hg1' : g'.1 = p
        · simp [hg1']
        · simp [hg1']
      rw [hkeys]
      exact h3
  · rw [addTarget_not_mem_keys p i acc hk]
    have hnotproc : ∀ t, (p, t) ∉ processed := by
      intro t hc
      obtain ⟨ts, hts⟩ := h2 p t hc
      exact hk (List.mem_map_of_mem Prod.fst hts)
    refine ⟨?_, ?_, ?_⟩
    · intro q ts hq
      rcases List.mem_append.mp hq with hin | hnew
      · have ⟨hiff, hnd⟩ := h1 q ts hin
        have hq1 : ¬ q = p := by
          intro hc
          subst hc
          exact hk (List.mem_map_of_mem Prod.fst hin)
        constructor
        · intro t
          rw [hiff t, List.mem_append]
          constructor
          · exact fun ht => Or.inl ht
          · rintro (ht | ht)
            · exact ht
            · exfalso
              have : q = p ∧ t = i := by simpa using ht
              exact hq1 this.1
        · exact hnd
      · have hqts : q = p ∧ ts = [i] := by simpa using hnew
        constructor
        · intro t
          rw [hqts.1, hqts.2]
          simp only [List.mem_singleton, List.mem_append]
          constructor
          · rintro rfl
            exact Or.inr (by simp)
          · rintro (ht | ht)
            · exact absurd ht (hnotproc t)
            · have h5 : p = p ∧ t = i := by simpa using ht
              exact h5.2
        · rw [hqts.2]
          simp
    · intro q t hq
      rcases List.mem_append.mp hq with hqin | hqnew
      · obtain ⟨ts, hts⟩ := h2 q t hqin
        exact ⟨ts, List.mem_append.mpr (Or.inl hts)⟩
      · have hqt : q = p ∧ t = i := by simpa using hqnew
        refine ⟨[i], ?_⟩
        rw [hqt.1]
        exact List.mem_append.mpr (Or.inr (by simp))
    · rw [List.map_append]
      simp only [List.map_cons, List.map_nil]
      rw [List.nodup_append]
      refine ⟨h3, by simp, ?_⟩
      intro a ha hb
      have : a = p := by simpa using hb
      subst this
      exact hk ha

/-- The invariant propagated over the whole spec. -/
theorem ginv_fold :
    ∀ (spec rest : List (String × String)) (acc : List (String × List String)),
      GInv rest acc →
      GInv (rest ++ spec) (spec.foldl (fun acc pi => Tool.addTarget acc pi.1 pi.2) acc) := by
  intro spec
  induction spec with
  | nil => intro rest acc h; simpa using h
  | cons pi spec' ih =>
    intro rest acc h
    have hstep := ginv_step rest acc pi.1 pi.2 h
    have := ih (rest ++ [(pi.1, pi.2)]) (Tool.addTarget acc pi.1 pi.2) hstep
    simpa [List.foldl_cons] using this

/-- The grouping pass satisfies the invariant against the full spec. -/
theorem groupTargets_inv (spec : List (String × String)) :
    GInv spec (Tool.groupTargets spec) := by
  have h0 : GInv [] [] := ⟨by simp, by simp, by simp⟩
  have := ginv_fold spec [] [] h0
  simpa [Tool.groupTargets] using this

/-- Two distinct members force length at least two. -/
theorem two_mem_one_lt_length {α : Type} {l : List α} {a b : α}
    (ha : a ∈ l) (hb : b ∈ l) (hne : a ≠ b) : 1 < l.length := by
  match l with
  | [] => exact absurd ha (by simp)
  | [x] =>
    exfalso
    apply hne
    rw [List.mem_singleton.mp ha, List.mem_singleton.mp hb]
  | x :: y :: r => simp

/-- In a list of length at most one, any two members coincide. -/
theorem length_le_one_mem_eq {α : Type} {l : List α} (h : l.length ≤ 1) {a b : α}
    (ha : a ∈ l) (hb : b ∈ l) : a = b := by
  match l with
  | [] => exact absurd ha (by simp)
  | [x] => rw [List.mem_singleton.mp ha, List.mem_singleton.mp hb]
  | x :: y :: r => simp at h

/-- A duplicate-free list of length above one holds two distinct members. -/
theorem nodup_one_lt_length_two_mem {α : Type} {l : List α} (hnd : l.Nodup)
    (h : 1 < l.length) : ∃ a b, a ∈ l ∧ b ∈ l ∧ a ≠ b := by
  match l with
  | [] => simp at h
  | [x] => simp at h
  | x :: y :: r =>
    refine ⟨x, y, by simp, by simp, ?_⟩
    intro hc
    have := (List.nodup_cons.mp hnd).1
    exact this (hc ▸ List.mem_cons_self y r)

/-- The validator's `_spec_errors` finds nothing exactly when every phrase
determines its target. -/
theorem spec_errors_eq_nil_iff (spec : List (String × String)) :
    Tool.spec_errors spec = [] ↔
      ∀ p t₁ t₂, (p, t₁) ∈ spec → (p, t₂) ∈ spec → t₁ = t₂ := by
  obtain ⟨h1, h2, _⟩ := groupTargets_inv spec
  unfold Tool.spec_errors
  rw [List.filter_eq_nil_iff]
  constructor
  · intro hall p t₁ t₂ hm1 hm2
    obtain ⟨ts, hts⟩ := h2 p t₁ hm1
    have hlen : ¬ (1 < ts.length) := by simpa using hall (p, ts) hts
    have hle : ts.length ≤ 1 := by omega
    exact length_le_one_mem_eq hle
      (((h1 p ts hts).1 t₁).mpr hm1) (((h1 p ts hts).1 t₂).mpr hm2)
  · intro hfun g hg
    simp only [decide_eq_true_eq]
    intro hlt
    have hgmem : (g.1, g.2) ∈ Tool.groupTargets spec := by simpa using hg
    have hnd := (h1 g.1 g.2 hgmem).2
    obtain ⟨a, b, ha, hb, hne⟩ := nodup_one_lt_length_two_mem hnd hlt
    exact hne
      (hfun g.1 a b (((h1 g.1 g.2 hgmem).1 a).mp ha) (((h1 g.1 g.2 hgmem).1 b).mp hb))

/-! ## Claim theorems -/

/-- C1: on the table built from `("say hello", A)` and `("say goodbye", B)`,
dispatching `["say", "hello", "--x"]` uniquely matches `A`, and the
instantiated command's entry point receives exactly the remaining tokens
`["--x"]` (witnessed by `A.run` returning its `["--x"]`-specific value). -/
theorem C1_unique_match_and_subargs :
    Tool.dispatch sayTable ["say", "hello", "--x"]
      = .matched "say hello" "A" ["--x"] ∧
    runTool envAB [] sayTable (some ["say", "hello", "--x"]) = .ok (some 7) :=
  ⟨by decide, rfl⟩

/-- C5: parsing the nested specification with a package key `"p"` and the
nested phrase `a b` over leaf `x` flattens to the single pair
`("a b", "p.x")`, with no leading dot on the namespace. -/
theorem C5_parse_package_example :
    Tool.spec_from_dict_pairs [("_package", .leaf "p"), ("a", .node [("b", .leaf "x")])]
      = .ok [("a b", "p.x")] := by
  simp only [Tool.spec_from_dict_pairs, Tool.parse_part, Tool.parseLoop]
  rfl

/-- C10: calling `Tool.main` with an explicitly empty token list behaves
identically to calling it with none at all — both fall back to the
process argument list; an empty list is never dispatched as a zero-token
input. -/
theorem C10_empty_argv_falls_back (sysArgv : List String) (cmds : List Entry) :
    Tool.main sysArgv cmds (some []) = Tool.main sysArgv cmds none ∧
    Tool.main sysArgv cmds (some []) = Tool.dispatch cmds sysArgv :=
  ⟨rfl, rfl⟩

/-- C2: validation raises a specification error exactly when some phrase
is paired with two distinct targets; on success the pair sequence is
returned unchanged (identical duplicate pairs included, by the literal
`.ok spec`); on failure the error payload names exactly the ambiguous
phrases, each with precisely the set of targets that phrase is paired
with in the spec. -/
theorem C2_validate_spec_iff_ambiguous (spec : List (String × String)) :
    (Tool.validate_spec spec = .ok spec ↔
      ∀ p t₁ t₂, (p, t₁) ∈ spec → (p, t₂) ∈ spec → t₁ = t₂) ∧
    (∀ errs, Tool.validate_spec spec = .err errs →
      (∀ p, (∃ ts, (p, ts) ∈ errs) ↔
        ∃ t₁ t₂, (p, t₁) ∈ spec ∧ (p, t₂) ∈ spec ∧ t₁ ≠ t₂) ∧
      (∀ p ts, (p, ts) ∈ errs → ∀ t, (t ∈ ts ↔ (p, t) ∈ spec))) := by
  obtain ⟨h1, h2, _⟩ := groupTargets_inv spec
  constructor
  · have hok : Tool.validate_spec spec = .ok spec ↔ Tool.spec_errors spec = [] := by
      unfold Tool.validate_spec
      cases hse : Tool.spec_errors spec with
      | nil => simp
      | cons x xs => simp
    rw [hok]
    exact spec_errors_eq_nil_iff spec
  · intro errs herr
    have herrs : errs = Tool.spec_errors spec := by
      unfold Tool.validate_spec at herr
      cases hse : Tool.spec_errors spec with
      | nil =>
        rw [hse] at herr
        simp at herr
      | cons x xs =>
        rw [hse] at herr
        have h6 : x :: xs = errs := by simpa using herr
        exact h6.symm
    subst herrs
    constructor
    · intro p
      constructor
      · rintro ⟨ts, hts⟩
        have hmem := List.mem_filter.mp hts
        have hlt : 1 < ts.length := by simpa using hmem.2
        have hgt := hmem.1
        have hnd := (h1 p ts hgt).2
        obtain ⟨a, b, ha, hb, hne⟩ := nodup_one_lt_length_two_mem hnd hlt
        exact ⟨a, b, ((h1 p ts hgt).1 a).mp ha, ((h1 p ts hgt).1 b).mp hb, hne⟩
      · rintro ⟨t₁, t₂, hm1, hm2, hne⟩
        obtain ⟨ts, hts⟩ := h2 p t₁ hm1
        refine ⟨ts, List.mem_filter.mpr ⟨hts, ?_⟩⟩
        have ha := ((h1 p ts hts).1 t₁).mpr hm1
        have hb := ((h1 p ts hts).1 t₂).mpr hm2
        simpa using two_mem_one_lt_length ha hb hne
    · intro p ts hts t
      have hmem := List.mem_filter.mp hts
      exact (h1 p ts hmem.1).1 t

/-- C3 (amended: for a non-empty candidate table): dispatch terminates
within `len(tokens) + 1` loop iterations (the fuel-counted loop with that
much fuel already computes the final outcome) and reaches one of the four
outcomes — unique match, incomplete, unrecognised, or help — never the
fifth (`crash`, the `IndexError` an empty table produces). -/
theorem C3_terminates_four_outcomes (cmds : List Entry) (argv : List String)
    (hne : cmds ≠ []) :
    Tool.mainLoopFuel argv (argv.length + 1) cmds [] argv
      = some (Tool.dispatch cmds argv) ∧
    Tool.dispatch cmds argv ≠ .crash :=
  ⟨mainLoopFuel_eq argv argv cmds [], mainLoop_ne_crash argv argv cmds [] hne⟩

/-- C3 witness: the bound and outcome shape hold on a concrete table and
input. -/
theorem C3_terminates_four_outcomes_witness :
    sayTable ≠ [] ∧
    (Tool.mainLoopFuel ["say"] 2 sayTable [] ["say"]
        = some (Tool.dispatch sayTable ["say"]) ∧
      Tool.dispatch sayTable ["say"] ≠ .crash) :=
  ⟨by decide, C3_terminates_four_outcomes sayTable ["say"] (by decide)⟩

/-- C4: at the first token whose narrowing step empties the candidate
subset, the unrecognised-command handler receives the pre-narrowing
subset and its result is returned at once, whatever tokens follow. -/
theorem C4_unrecognised_pre_narrowing (argv : List String) (possible : List Entry)
    (pfx : List String) (t : String) (rest : List String)
    (hne : possible ≠ [])
    (hbr : Tool.breakCond possible pfx = false)
    (hh : Tool.isHelpToken t = false)
    (hempty : possible.filter
      (fun e => decide (e.tokens.take (pfx ++ [t]).length = pfx ++ [t])) = []) :
    Tool.mainLoop argv possible pfx (t :: rest) = .unrecognised (pfx ++ [t]) possible := by
  have h0 : ¬ possible.length = 0 := by simpa [List.length_eq_zero] using hne
  simp [List.filter_eq_nil_iff] at hempty
  simp [Tool.mainLoop, h0, hbr, hh, hempty]
  intro x hx htake
  exact absurd htake (hempty x hx)

/-- C4 witness: the failing token `bye` empties the subset of `sayTable`;
the handler gets the full pre-narrowing table and the trailing token is
never examined. -/
theorem C4_unrecognised_pre_narrowing_witness :
    Tool.mainLoop ["bye", "zzz"] sayTable [] ["bye", "zzz"]
      = .unrecognised ["bye"] sayTable :=
  C4_unrecognised_pre_narrowing ["bye", "zzz"] sayTable [] "bye" ["zzz"]
    (by decide) (by decide) (by decide) (by decide)

/-- C3 counterexample: the empty candidate table passes validation, yet
dispatching against it reaches none of the four claimed outcomes — it
raises `IndexError` (`possible[0]` after the never-entered loop). -/
theorem C3_counterexample_empty_table :
    Tool.validate_spec [] = .ok [] ∧
    Tool.init [] = [] ∧
    Tool.dispatch (Tool.init []) [] = .crash :=
  ⟨rfl, rfl, rfl⟩

/-- C9 (amended): with two literally identical entries — which validation
permits — dispatching the full phrase exactly never produces a unique
match, since the termination check demands a subset of size one while
both copies always survive narrowing; and, provided no token of the
phrase is a help marker, the incomplete-command handler is invoked with
both copies still in the subset (a help-marker token in the phrase
triggers the help display there instead). -/
theorem C9_duplicate_entries_no_match (p c : String) :
    isMatched (Tool.dispatch (Tool.init [(p, c), (p, c)]) (splitSp p)) = false ∧
    ((∀ t ∈ splitSp p, Tool.isHelpToken t = false) →
      Tool.dispatch (Tool.init [(p, c), (p, c)]) (splitSp p)
        = .incomplete (splitSp p) [⟨splitSp p, p, c⟩, ⟨splitSp p, p, c⟩]) := by
  rw [init_pair_dup]
  constructor
  · exact dup_never_matched (splitSp p) (splitSp p) [] ⟨splitSp p, p, c⟩
  · intro hh
    have := dup_incomplete (splitSp p) (splitSp p) [] ⟨splitSp p, p, c⟩ (by simp) hh
    simpa [Tool.dispatch] using this

/-- C9 witness: the duplicated phrase `say hi` dispatched as
`["say", "hi"]` produces no unique match and, its tokens being no help
markers, lands in the incomplete handler with both copies. -/
theorem C9_duplicate_entries_no_match_witness :
    (∀ t ∈ splitSp "say hi", Tool.isHelpToken t = false) ∧
    isMatched
      (Tool.dispatch (Tool.init [("say hi", "A"), ("say hi", "A")]) (splitSp "say hi"))
        = false ∧
    Tool.dispatch (Tool.init [("say hi", "A"), ("say hi", "A")]) (splitSp "say hi")
      = .incomplete (splitSp "say hi")
          [⟨splitSp "say hi", "say hi", "A"⟩, ⟨splitSp "say hi", "say hi", "A"⟩] :=
  ⟨by decide,
   (C9_duplicate_entries_no_match "say hi" "A").1,
   (C9_duplicate_entries_no_match "say hi" "A").2 (by decide)⟩

/-- C9 counterexample: a table with two identical entries whose phrase
contains the token `help`; validation permits it, but dispatching the
full phrase triggers the help display, not the incomplete-command
handler. -/
theorem C9_counterexample_help_phrase :
    Tool.validate_spec [("say help", "A"), ("say help", "A")]
      = .ok [("say help", "A"), ("say help", "A")] ∧
    Tool.dispatch dupHelpTable ["say", "help"] = .help dupHelpTable :=
  ⟨by decide, by decide⟩

/-- C6 (amended): when a help marker is consumed during phrase resolution
(the dispatch outcome is the help display over the then-current
candidates), and every remaining candidate's target reference resolves —
help rendering does resolve them to read their descriptions — the run
displays the possible phrases, invokes no command, and exits with
status 0. -/
theorem C6_help_exits_zero (env : String → Option Cmd) (sysArgv : List String)
    (cmds : List Entry) (argvOpt : Option (List String)) (possible : List Entry)
    (hdisp : Tool.main sysArgv cmds argvOpt = .help possible)
    (hres : ∀ e ∈ possible, (env e.target).isSome) :
    exitStatusOf (runTool env sysArgv cmds argvOpt) = some 0 := by
  have hne : possible ≠ [] :=
    mainLoop_help_nonempty (Tool.effArgv sysArgv argvOpt) (Tool.effArgv sysArgv argvOpt)
      cmds [] possible hdisp
  obtain ⟨ls, hok⟩ := do_help_ok env "Valid commands:" possible hne hres
  simp [runTool, hdisp, hok, exitStatusOf]

/-- C6 witness: `["help"]` on the two-command table with both targets
resolvable exits with status 0. -/
theorem C6_help_exits_zero_witness :
    Tool.main [] sayTable (some ["help"]) = .help sayTable ∧
    (∀ e ∈ sayTable, (envAB e.target).isSome) ∧
    exitStatusOf (runTool envAB [] sayTable (some ["help"])) = some 0 :=
  ⟨by decide, by decide,
    C6_help_exits_zero envAB [] sayTable (some ["help"]) sayTable (by decide) (by decide)⟩

/-- C6 counterexample: the input `["help"]` requests help, yet with an
unresolvable target the run does not exit with status 0 — the resolution
failure escapes, because help rendering resolves every candidate target. -/
theorem C6_counterexample_unresolvable_target :
    Tool.dispatch sayTable ["help"] = .help sayTable ∧
    exitStatusOf (runTool env0 [] sayTable (some ["help"])) = none :=
  ⟨by decide, rfl⟩

/-- C8: token-prefix push/pop is strictly scoped — processing a list of
sibling keys decomposes into processing the first sibling alone and then
the remaining siblings with exactly the token-prefix that was in force
before the first sibling, on every exit path including errors (an error
inside the first sibling's subtree propagates without the second sibling
ever seeing its tokens). -/
theorem C8_sibling_token_scoping (ns : String) (tokens : List String) (k : String)
    (v : Tool.Node) (rest : List (String × Tool.Node)) :
    Tool.parseLoop ns tokens ((k, v) :: rest) =
      (match Tool.parseLoop ns tokens [(k, v)] with
       | .err e => .err e
       | .ok ps =>
         match Tool.parseLoop ns tokens rest with
         | .err e => .err e
         | .ok qs => .ok (ps ++ qs)) := by
  by_cases hu : startsWithUnderscore k = true
  · cases hr : Tool.parseLoop ns tokens rest <;>
      simp [Tool.parseLoop, hu, hr]
  · match v with
    | .leaf s =>
      cases hr : Tool.parseLoop ns tokens rest <;>
        simp [Tool.parseLoop, hu, hr]
    | .node es =>
      cases hp : Tool.parse_part ns (tokens ++ [k]) es <;>
        cases hr : Tool.parseLoop ns tokens rest <;>
          simp [Tool.parseLoop, hu, hp, hr]
    | .other =>
      simp [Tool.parseLoop, hu]

/-- C7: contrary to the claim, a failure to resolve a candidate's target
during help-text rendering is propagated to the caller: `do_help`
re-raises it (the placeholder assignment in the `except` clause is dead
code behind a bare `raise`). -/
theorem C7_resolution_failure_propagates :
    Tool.do_help env0 "Valid commands:" sayTable = .exn ∧
    runTool env0 [] sayTable (some ["help"]) = .exn :=
  ⟨rfl, rfl⟩

end RjgCli
